import Mathlib

set_option maxHeartbeats 1000000

/-- Scalar (non-pointer, non-struct) Go values that occur as struct fields in
this development: strings, integers and booleans.  Other scalar kinds play the
same role (opaque leaves that `censorFields` never walks into), so these three
stand for all of them. -/
inductive Leaf where
  | str : String → Leaf
  | int : Int → Leaf
  | bool : Bool → Leaf
deriving DecidableEq

/-- JSON values as zerolog serializes individual fields into the context
buffer: a `zerolog.Context.Str` call contributes a JSON string, a
`zerolog.Context.Any` call contributes the JSON form of the Go value. -/
inductive Json where
  | str : String → Json
  | num : Int → Json
  | bool : Bool → Json
  | null : Json
deriving DecidableEq

/-- JSON serialization of a scalar: native type is preserved (numbers stay
numbers, booleans stay booleans). -/
def jsonOfLeaf : Leaf → Json
  | .str s => .str s
  | .int n => .num n
  | .bool b => .bool b

/-- One struct field, bundling the per-field data `censorFields` consults:
the declared name (`reflect.StructField.Name`), the value of its secret tag
(`reflect.StructField.Tag.Get "secret"`), whether the field is exported
(an unexported field is the one case where `reflect.Value.Interface` panics),
and the field's value. -/
structure Fld (α : Type) where
  name : String
  tag : String
  exported : Bool
  val : α

/-- Go values as seen by the redaction walker `censorFields`: a scalar leaf,
a pointer (`none` models a nil pointer), or a struct with its fields in
declaration order. -/
inductive Value where
  | leaf : Leaf → Value
  | ptr : Option Value → Value
  | strukt : List (Fld Value) → Value

/-- Source constant `CensoredFieldPlaceholder = "***"` (golog.go line 67). -/
def CensoredFieldPlaceholder : String := "***"

/-- Source function `isFieldSecret` (golog.go lines 141-143): a field is
secret iff `f.Tag.Get("secret")` is non-empty; `Fld.tag` models exactly the
result of that tag lookup. -/
def isFieldSecret {α : Type} (f : Fld α) : Bool := f.tag != ""

/-- Source function `asStruct` (golog.go lines 147-161): dereference all
pointer levels, failing on a nil pointer, then succeed iff the result is a
struct.  The `for` loop over pointer levels becomes structural recursion. -/
def asStruct : Value → Option Value
  | .ptr none => none
  | .ptr (some v) => asStruct v
  | .leaf _ => none
  | .strukt fs => some (.strukt fs)

theorem asStruct_eq_strukt : ∀ {v w : Value}, asStruct v = some w →
    ∃ fs, w = .strukt fs
  | .ptr (some u), w, h => asStruct_eq_strukt (v := u) h
  | .strukt fs, _, h => ⟨fs, by simpa [asStruct] using h.symm⟩

theorem asStruct_sizeOf : ∀ {v w : Value}, asStruct v = some w →
    sizeOf w ≤ sizeOf v
  | .ptr (some u), w, h => by
    have := asStruct_sizeOf (v := u) (w := w) h
    simp only [Value.ptr.sizeOf_spec, Option.some.sizeOf_spec]
    omega
  | .strukt fs, w, h => by
    simp only [asStruct, Option.some.injEq] at h
    subst h
    omega

theorem asStruct_idem {v w : Value} (h : asStruct v = some w) :
    asStruct w = some w := by
  obtain ⟨fs, rfl⟩ := asStruct_eq_strukt h
  rfl

/-- Serialization performed by `zerolog.Context.Any` on the values
`censorFields` hands to it (values that do not normalize to a struct):
a nil-terminated pointer chain serializes to JSON null, a non-nil pointer
serializes its pointee, a scalar serializes natively.  `censorFields` never
passes a struct-normalizing value to `Any` (such fields are recursed into
instead), so the struct branch below is unreachable in this development and
is mapped to null. -/
def jsonOfAny : Value → Json
  | .leaf l => jsonOfLeaf l
  | .ptr none => .null
  | .ptr (some v) => jsonOfAny v
  | .strukt _ => .null

/-- The accumulator: zerolog's context buffer, as the ordered list of
(field name, JSON value) pairs appended so far. -/
abbrev Ctx := List (String × Json)

theorem fld_val_sizeOf_lt (f : Fld Value) : sizeOf f.val < sizeOf f := by
  obtain ⟨n, t, e, v⟩ := f
  simp only [Fld.mk.sizeOf_spec]
  omega

mutual

/-- Source function `censorFields` (golog.go lines 113-138): normalize `v`
with `asStruct`; on failure return the accumulator unchanged; otherwise walk
the fields in declaration order (the `for` loop is `censorFieldsLoop`). -/
def censorFields (ctx : Ctx) (path : String) (v : Value) : Ctx :=
  match h : asStruct v with
  | some (.strukt fs) => censorFieldsLoop ctx path fs
  | _ => ctx
termination_by sizeOf v
decreasing_by
  all_goals first
    | (have h1 := asStruct_sizeOf h
       have h2 := fld_val_sizeOf_lt f
       simp only [List.cons.sizeOf_spec] at *
       omega)
    | (have h1 := asStruct_sizeOf h
       simp only [Value.strukt.sizeOf_spec] at *
       omega)
    | (simp only [List.cons.sizeOf_spec] at *; omega)

/-- The field loop of `censorFields` (golog.go lines 120-137): a field whose
value normalizes to a struct is recursed into (passing the dereferenced
struct, never emitting for the field itself); otherwise the field is emitted
at `path ++ "." ++ name` — the placeholder if its secret tag is non-empty,
its actual value via `Any` otherwise. -/
def censorFieldsLoop (ctx : Ctx) (path : String) (fs : List (Fld Value)) : Ctx :=
  match fs with
  | [] => ctx
  | f :: rest =>
    match h : asStruct f.val with
    | some w => censorFieldsLoop (censorFields ctx (path ++ "." ++ f.name) w) path rest
    | none =>
      censorFieldsLoop
        (if isFieldSecret f then
          ctx ++ [(path ++ "." ++ f.name, Json.str CensoredFieldPlaceholder)]
        else
          ctx ++ [(path ++ "." ++ f.name, jsonOfAny f.val)])
        path rest
termination_by sizeOf fs
decreasing_by
  all_goals first
    | (have h1 := asStruct_sizeOf h
       have h2 := fld_val_sizeOf_lt f
       simp only [List.cons.sizeOf_spec] at *
       omega)
    | (have h1 := asStruct_sizeOf h
       simp only [Value.strukt.sizeOf_spec] at *
       omega)
    | (simp only [List.cons.sizeOf_spec] at *; omega)

end

/-- Source function `WithCensoredSecretFields` (golog.go lines 107-110):
runs `censorFields` on the reflected value with the root name and returns the
(mutated) context. -/
def WithCensoredSecretFields (ctx : Ctx) (rootName : String) (v : Value) : Ctx :=
  censorFields ctx rootName v

example : censorFields [] "config"
    (.strukt [⟨"Username", "", true, .leaf (.str "admin")⟩,
              ⟨"Password", "true", true, .leaf (.str "s3cr3t")⟩]) =
    [("config.Username", .str "admin"), ("config.Password", .str "***")] := by
  simp [censorFields, censorFieldsLoop, asStruct, isFieldSecret, jsonOfAny,
    jsonOfLeaf, CensoredFieldPlaceholder]

mutual

/-- Second definition, following the spec's words (section 4.1 of the spec),
for comparison with `censorFields`: the declaration-order list of leaf fields
of `v`, each as (field path, is it sensitivity-marked, its serialized value).
Field paths gain one `"." ++ name` segment per nesting level; a field whose
value normalizes to a record contributes its leaf descendants; a traversal
dead-end under a field contributes that one field as a leaf. -/
def leafEntries (path : String) (v : Value) : List (String × Bool × Json) :=
  match h : asStruct v with
  | some (.strukt fs) => leafEntriesLoop path fs
  | _ => []
termination_by sizeOf v
decreasing_by
  all_goals first
    | (have h1 := asStruct_sizeOf h
       have h2 := fld_val_sizeOf_lt f
       simp only [List.cons.sizeOf_spec] at *
       omega)
    | (have h1 := asStruct_sizeOf h
       simp only [Value.strukt.sizeOf_spec] at *
       omega)
    | (simp only [List.cons.sizeOf_spec] at *; omega)

/-- Leaf fields contributed by a field list, in declaration order. -/
def leafEntriesLoop (path : String) (fs : List (Fld Value)) :
    List (String × Bool × Json) :=
  match fs with
  | [] => []
  | f :: rest =>
    (match h : asStruct f.val with
     | some w => leafEntries (path ++ "." ++ f.name) w
     | none => [(path ++ "." ++ f.name, isFieldSecret f, jsonOfAny f.val)]) ++
    leafEntriesLoop path rest
termination_by sizeOf fs
decreasing_by
  all_goals first
    | (have h1 := asStruct_sizeOf h
       have h2 := fld_val_sizeOf_lt f
       simp only [List.cons.sizeOf_spec] at *
       omega)
    | (have h1 := asStruct_sizeOf h
       simp only [Value.strukt.sizeOf_spec] at *
       omega)
    | (simp only [List.cons.sizeOf_spec] at *; omega)

end

/-- How one leaf field reaches the accumulator: placeholder if marked,
serialized value otherwise. -/
def emitOfEntry (e : String × Bool × Json) : String × Json :=
  (e.1, if e.2.1 then Json.str CensoredFieldPlaceholder else e.2.2)

theorem censorFields_none {v : Value} (h : asStruct v = none)
    (ctx : Ctx) (path : String) : censorFields ctx path v = ctx := by
  rw [censorFields.eq_def]
  split <;> simp_all

theorem censorFields_strukt {v : Value} {fs : List (Fld Value)}
    (h : asStruct v = some (.strukt fs)) (ctx : Ctx) (path : String) :
    censorFields ctx path v = censorFieldsLoop ctx path fs := by
  rw [censorFields.eq_def]
  split <;> simp_all

theorem censorFieldsLoop_nil (ctx : Ctx) (path : String) :
    censorFieldsLoop ctx path [] = ctx := by
  rw [censorFieldsLoop.eq_def]

theorem censorFieldsLoop_cons_struct {f : Fld Value} {w : Value}
    (h : asStruct f.val = some w) (ctx : Ctx) (path : String)
    (rest : List (Fld Value)) :
    censorFieldsLoop ctx path (f :: rest) =
      censorFieldsLoop (censorFields ctx (path ++ "." ++ f.name) w) path rest := by
  rw [censorFieldsLoop.eq_def]
  dsimp only
  split <;> simp_all

theorem censorFieldsLoop_cons_leaf {f : Fld Value}
    (h : asStruct f.val = none) (ctx : Ctx) (path : String)
    (rest : List (Fld Value)) :
    censorFieldsLoop ctx path (f :: rest) =
      censorFieldsLoop
        (ctx ++ [(path ++ "." ++ f.name,
          if isFieldSecret f then Json.str CensoredFieldPlaceholder
          else jsonOfAny f.val)])
        path rest := by
  rw [censorFieldsLoop.eq_def]
  dsimp only
  split <;> simp_all
  split <;> simp_all

theorem leafEntries_none {v : Value} (h : asStruct v = none) (path : String) :
    leafEntries path v = [] := by
  rw [leafEntries.eq_def]
  split <;> simp_all

theorem leafEntries_strukt {v : Value} {fs : List (Fld Value)}
    (h : asStruct v = some (.strukt fs)) (path : String) :
    leafEntries path v = leafEntriesLoop path fs := by
  rw [leafEntries.eq_def]
  split <;> simp_all

theorem leafEntriesLoop_nil (path : String) : leafEntriesLoop path [] = [] := by
  rw [leafEntriesLoop.eq_def]

theorem leafEntriesLoop_cons_struct {f : Fld Value} {w : Value}
    (h : asStruct f.val = some w) (path : String) (rest : List (Fld Value)) :
    leafEntriesLoop path (f :: rest) =
      leafEntries (path ++ "." ++ f.name) w ++ leafEntriesLoop path rest := by
  rw [leafEntriesLoop.eq_def]
  dsimp only
  split <;> simp_all

theorem leafEntriesLoop_cons_leaf {f : Fld Value}
    (h : asStruct f.val = none) (path : String) (rest : List (Fld Value)) :
    leafEntriesLoop path (f :: rest) =
      (path ++ "." ++ f.name, isFieldSecret f, jsonOfAny f.val) ::
        leafEntriesLoop path rest := by
  rw [leafEntriesLoop.eq_def]
  dsimp only
  split <;> simp_all

theorem censor_leafEntries_aux :
    ∀ N : Nat,
      (∀ v : Value, sizeOf v ≤ N → ∀ ctx path,
          censorFields ctx path v = ctx ++ (leafEntries path v).map emitOfEntry) ∧
      (∀ fs : List (Fld Value), sizeOf fs ≤ N → ∀ ctx path,
          censorFieldsLoop ctx path fs =
            ctx ++ (leafEntriesLoop path fs).map emitOfEntry) := by
  intro N
  induction N using Nat.strong_induction_on with
  | _ N IH =>
  constructor
  · intro v hN ctx path
    cases hv : asStruct v with
    | none => rw [censorFields_none hv, leafEntries_none hv]; simp
    | some w =>
      obtain ⟨fs, rfl⟩ := asStruct_eq_strukt hv
      have hsz := asStruct_sizeOf hv
      simp only [Value.strukt.sizeOf_spec] at hsz
      have hv1 : 1 ≤ sizeOf v := by
        cases v <;> simp_arith
      rw [censorFields_strukt hv, leafEntries_strukt hv]
      exact (IH (N - 1) (by omega)).2 fs (by omega) ctx path
  · intro fs hN ctx path
    cases fs with
    | nil => rw [censorFieldsLoop_nil, leafEntriesLoop_nil]; simp
    | cons f rest =>
      have hrest : sizeOf rest < sizeOf (f :: rest) := by
        simp only [List.cons.sizeOf_spec]; omega
      have hfval : sizeOf f.val < sizeOf (f :: rest) := by
        have := fld_val_sizeOf_lt f
        simp only [List.cons.sizeOf_spec]; omega
      have hN1 : 1 ≤ N := by
        have : 1 ≤ sizeOf (f :: rest) := by
          simp only [List.cons.sizeOf_spec]; omega
        omega
      cases hf : asStruct f.val with
      | some w =>
        have hszw := asStruct_sizeOf hf
        rw [censorFieldsLoop_cons_struct hf, leafEntriesLoop_cons_struct hf]
        rw [(IH (N - 1) (by omega)).1 w (by omega) ctx (path ++ "." ++ f.name)]
        rw [(IH (N - 1) (by omega)).2 rest (by omega)]
        simp [List.append_assoc]
      | none =>
        rw [censorFieldsLoop_cons_leaf hf, leafEntriesLoop_cons_leaf hf]
        rw [(IH (N - 1) (by omega)).2 rest (by omega)]
        simp [emitOfEntry, List.append_assoc]

/-- Refinement: `censorFields` only appends to the accumulator, and what it
appends is exactly the spec-side leaf walk `leafEntries`, each sensitive
leaf replaced by the placeholder and each other leaf serialized. -/
theorem censorFields_eq_leafEntries (ctx : Ctx) (path : String) (v : Value) :
    censorFields ctx path v = ctx ++ (leafEntries path v).map emitOfEntry :=
  (censor_leafEntries_aux (sizeOf v)).1 v (Nat.le_refl _) ctx path

theorem censorFieldsLoop_eq_leafEntriesLoop (ctx : Ctx) (path : String)
    (fs : List (Fld Value)) :
    censorFieldsLoop ctx path fs =
      ctx ++ (leafEntriesLoop path fs).map emitOfEntry :=
  (censor_leafEntries_aux (sizeOf fs)).2 fs (Nat.le_refl _) ctx path

/-- Spec-side: the field paths of the walked leaves — the root label followed
by one "." ++ declared-name segment per nesting level, in declaration order. -/
def leafPaths (path : String) (v : Value) : List String :=
  (leafEntries path v).map (fun e => e.1)

/-- Original serialized values of the sensitivity-marked entries of a leaf
list, in order. -/
def secretValsOfEntries : List (String × Bool × Json) → List Json
  | [] => []
  | e :: L =>
    if e.2.1 then e.2.2 :: secretValsOfEntries L else secretValsOfEntries L

/-- Serialized values of the unmarked entries of a leaf list, in order. -/
def publicValsOfEntries : List (String × Bool × Json) → List Json
  | [] => []
  | e :: L =>
    if e.2.1 then publicValsOfEntries L else e.2.2 :: publicValsOfEntries L

/-- Spec-side: the original serialized values of the sensitivity-marked leaf
fields of `v`. -/
def secretLeafVals (path : String) (v : Value) : List Json :=
  secretValsOfEntries (leafEntries path v)

/-- Spec-side: the serialized values of the unmarked leaf fields of `v`. -/
def publicLeafVals (path : String) (v : Value) : List Json :=
  publicValsOfEntries (leafEntries path v)

/-- Spec-side: how many sensitivity-marked leaf fields the walk of `v` sees
(the N of the spec's counting property). -/
def countSecretLeaves (path : String) (v : Value) : Nat :=
  (secretLeafVals path v).length

/-- Number of accumulator entries whose value is the placeholder string. -/
def countPlaceholders : Ctx → Nat
  | [] => 0
  | e :: ctx =>
    (if e.2 = Json.str CensoredFieldPlaceholder then 1 else 0) +
      countPlaceholders ctx

theorem countPlaceholders_map_emit (L : List (String × Bool × Json))
    (h : Json.str CensoredFieldPlaceholder ∉ publicValsOfEntries L) :
    countPlaceholders (L.map emitOfEntry) = (secretValsOfEntries L).length := by
  induction L with
  | nil => rfl
  | cons e L ih =>
    obtain ⟨p, s, j⟩ := e
    cases s with
    | true =>
      rw [List.map_cons]
      simp only [publicValsOfEntries, if_pos rfl] at h
      simp only [countPlaceholders, emitOfEntry, secretValsOfEntries]
      simp [ih (by simpa using h)]
      omega
    | false =>
      rw [List.map_cons]
      simp only [publicValsOfEntries] at h
      simp only [if_neg Bool.false_ne_true, List.mem_cons, not_or] at h
      obtain ⟨hj, hrest⟩ := h
      simp only [countPlaceholders, emitOfEntry, secretValsOfEntries]
      simp only [if_neg Bool.false_ne_true]
      simp [ih hrest, Ne.symm hj]

theorem emit_snd_mem (L : List (String × Bool × Json)) :
    ∀ e ∈ L.map emitOfEntry, e.2 = Json.str CensoredFieldPlaceholder ∨
      e.2 ∈ publicValsOfEntries L := by
  induction L with
  | nil => simp
  | cons x L ih =>
    obtain ⟨p, s, j⟩ := x
    intro e he
    rw [List.map_cons, List.mem_cons] at he
    cases he with
    | inl h =>
      subst h
      cases s with
      | true => left; simp [emitOfEntry]
      | false =>
        right
        simp only [publicValsOfEntries, if_neg Bool.false_ne_true]
        simp [emitOfEntry]
    | inr h =>
      cases ih e h with
      | inl h1 => exact Or.inl h1
      | inr h1 =>
        right
        cases s with
        | true => simpa [publicValsOfEntries] using h1
        | false =>
          simp only [publicValsOfEntries, if_neg Bool.false_ne_true]
          exact List.mem_cons_of_mem _ h1

/-- Helper: one pointer indirection does not change the walk. -/
theorem censorFields_ptr_some (ctx : Ctx) (path : String) (u : Value) :
    censorFields ctx path (.ptr (some u)) = censorFields ctx path u := by
  cases h : asStruct u with
  | none =>
    rw [censorFields_none h, censorFields_none (v := .ptr (some u)) (by simpa [asStruct] using h)]
  | some w =>
    obtain ⟨fs, rfl⟩ := asStruct_eq_strukt h
    rw [censorFields_strukt h,
      censorFields_strukt (v := .ptr (some u)) (by simpa [asStruct] using h)]

/-- A value behind `n` levels of non-nil pointer indirection. -/
def iterPtr : Nat → Value → Value
  | 0, v => v
  | n + 1, v => .ptr (some (iterPtr n v))

/-- C5: For every value r and every chain of reference indirections p
pointing (possibly through several levels of pointer-to-pointer) at r,
redacting p with a given root label yields exactly the same emitted field
set, in the same order, as redacting r directly. -/
theorem c5_pointer_chain_invariance (n : Nat) (ctx : Ctx) (root : String)
    (r : Value) :
    WithCensoredSecretFields ctx root (iterPtr n r) =
      WithCensoredSecretFields ctx root r := by
  unfold WithCensoredSecretFields
  induction n with
  | zero => rfl
  | succ n ih => rw [iterPtr, censorFields_ptr_some, ih]

/-- C6: Each emitted field path is the root label followed by one
"."-separated segment per nesting level, each segment being that level's
declared field name, and entries are emitted in field declaration order:
the accumulator's keys are exactly `leafPaths`, in order. -/
theorem c6_field_paths_declaration_order (root : String) (v : Value) :
    (censorFields [] root v).map Prod.fst = leafPaths root v := by
  rw [censorFields_eq_leafEntries, List.nil_append, leafPaths, List.map_map]
  exact List.map_congr_left (fun e _ => rfl)

/-- C3: For every field whose value does not normalize to a record: if the
sensitivity tag is non-empty the entry (fieldPath, placeholder) is appended,
otherwise (fieldPath, actual value) is appended with its native JSON type
preserved (numbers stay numbers, booleans stay booleans — not stringified). -/
theorem c3_leaf_emission (ctx : Ctx) (path : String) (f : Fld Value)
    (rest : List (Fld Value)) (h : asStruct f.val = none) :
    (censorFieldsLoop ctx path (f :: rest) =
      censorFieldsLoop (ctx ++ [(path ++ "." ++ f.name,
        if isFieldSecret f then Json.str CensoredFieldPlaceholder
        else jsonOfAny f.val)]) path rest) ∧
    (∀ n : Int, jsonOfAny (.leaf (.int n)) = .num n) ∧
    (∀ b : Bool, jsonOfAny (.leaf (.bool b)) = .bool b) ∧
    (∀ s : String, jsonOfAny (.leaf (.str s)) = .str s) :=
  ⟨censorFieldsLoop_cons_leaf h ctx path rest,
    fun _ => rfl, fun _ => rfl, fun _ => rfl⟩

/-- C3 witness: the emission step at a concrete non-secret integer field
keeps the number a JSON number. -/
theorem c3_leaf_emission_witness :
    censorFieldsLoop [] "r" [⟨"Age", "", true, .leaf (.int 42)⟩] =
      censorFieldsLoop [("r.Age", Json.num 42)] "r" [] := by
  have h := (c3_leaf_emission [] "r" ⟨"Age", "", true, .leaf (.int 42)⟩ [] rfl).1
  simpa [isFieldSecret, jsonOfAny, jsonOfLeaf] using h

/-- C2 counterexample: in the record {A: "***" (unmarked), B: "***"
(secret-tagged)} there is exactly N = 1 sensitivity-marked leaf field, yet
the accumulator holds 2 entries whose value is the placeholder string, and
the entry for A carries a value equal to the original sensitive value of B.
So the claim as stated is false at this input. -/
theorem c2_placeholder_collision_cex :
    countSecretLeaves "r" (.strukt [⟨"A", "", true, .leaf (.str "***")⟩,
        ⟨"B", "true", true, .leaf (.str "***")⟩]) = 1 ∧
    countPlaceholders (censorFields [] "r"
        (.strukt [⟨"A", "", true, .leaf (.str "***")⟩,
          ⟨"B", "true", true, .leaf (.str "***")⟩])) = 2 ∧
    Json.str "***" ∈ secretLeafVals "r"
        (.strukt [⟨"A", "", true, .leaf (.str "***")⟩,
          ⟨"B", "true", true, .leaf (.str "***")⟩]) ∧
    ("r.A", Json.str "***") ∈ censorFields [] "r"
        (.strukt [⟨"A", "", true, .leaf (.str "***")⟩,
          ⟨"B", "true", true, .leaf (.str "***")⟩]) := by
  refine ⟨?_, ?_, ?_, ?_⟩ <;>
    simp [countSecretLeaves, secretLeafVals, publicLeafVals, leafEntries,
      leafEntriesLoop, asStruct, isFieldSecret, jsonOfAny, jsonOfLeaf,
      CensoredFieldPlaceholder, censorFields, censorFieldsLoop,
      countPlaceholders, secretValsOfEntries, publicValsOfEntries]

/-- C2 (amended): provided the placeholder string does not occur among the
unmarked leaf values, and no sensitivity-marked leaf value coincides with an
unmarked leaf value or with the placeholder itself, the accumulator contains
exactly N placeholder entries for the N sensitivity-marked leaf fields, and
no entry whose value equals any original sensitive field value. -/
theorem c2_secret_leaf_redaction (path : String) (v : Value)
    (h1 : Json.str CensoredFieldPlaceholder ∉ publicLeafVals path v)
    (h2 : ∀ j ∈ secretLeafVals path v,
      j ∉ publicLeafVals path v ∧ j ≠ Json.str CensoredFieldPlaceholder) :
    countPlaceholders (censorFields [] path v) = countSecretLeaves path v ∧
      ∀ e ∈ censorFields [] path v, e.2 ∉ secretLeafVals path v := by
  rw [censorFields_eq_leafEntries, List.nil_append]
  constructor
  · exact countPlaceholders_map_emit _ h1
  · intro e he hmem
    rcases emit_snd_mem _ e he with hph | hpub
    · exact (h2 _ hmem).2 hph
    · exact (h2 _ hmem).1 hpub

/-- C2 witness: the amended claim at the spec's own example record. -/
theorem c2_secret_leaf_redaction_witness :
    countPlaceholders (censorFields [] "config"
        (.strukt [⟨"Username", "", true, .leaf (.str "admin")⟩,
          ⟨"Password", "true", true, .leaf (.str "s3cr3t")⟩])) =
      countSecretLeaves "config"
        (.strukt [⟨"Username", "", true, .leaf (.str "admin")⟩,
          ⟨"Password", "true", true, .leaf (.str "s3cr3t")⟩]) ∧
    ∀ e ∈ censorFields [] "config"
        (.strukt [⟨"Username", "", true, .leaf (.str "admin")⟩,
          ⟨"Password", "true", true, .leaf (.str "s3cr3t")⟩]),
      e.2 ∉ secretLeafVals "config"
        (.strukt [⟨"Username", "", true, .leaf (.str "admin")⟩,
          ⟨"Password", "true", true, .leaf (.str "s3cr3t")⟩]) := by
  apply c2_secret_leaf_redaction
  · simp [publicLeafVals, leafEntries, leafEntriesLoop, asStruct,
      isFieldSecret, jsonOfAny, jsonOfLeaf, CensoredFieldPlaceholder,
      publicValsOfEntries]
  · simp [secretLeafVals, publicLeafVals, leafEntries, leafEntriesLoop,
      asStruct, isFieldSecret, jsonOfAny, jsonOfLeaf,
      CensoredFieldPlaceholder, secretValsOfEntries, publicValsOfEntries]

/-- C4 counterexample: a nil nested record reference does not contribute
zero entries for its branch — the field itself is emitted, as JSON null
(it would be the placeholder if the field were secret-tagged). -/
theorem c4_nil_ref_emits_cex :
    censorFields [] "cfg" (.strukt [⟨"Sub", "", true, .ptr none⟩]) =
      [("cfg.Sub", Json.null)] ∧
    censorFields [] "cfg" (.strukt [⟨"Sub", "", true, .ptr none⟩]) ≠ [] := by
  constructor <;>
    simp [censorFields, censorFieldsLoop, asStruct, isFieldSecret, jsonOfAny]

/-- C4 (amended): a traversal dead-end at the top level emits zero entries
and signals no error; a dead-end reached as a nested field emits exactly one
entry at the field's own path — the placeholder if the field is
sensitivity-marked, otherwise its serialized value (JSON null for a nil
reference) — and zero entries for any sub-field of that branch. -/
theorem c4_dead_end_policy (v : Value) (h : asStruct v = none) :
    (∀ ctx path, censorFields ctx path v = ctx) ∧
    (∀ ctx path name tag ex rest,
      censorFieldsLoop ctx path (⟨name, tag, ex, .ptr none⟩ :: rest) =
        censorFieldsLoop (ctx ++ [(path ++ "." ++ name,
          if tag != "" then Json.str CensoredFieldPlaceholder
          else Json.null)]) path rest) := by
  constructor
  · exact fun ctx path => censorFields_none h ctx path
  · intro ctx path name tag ex rest
    simpa [isFieldSecret, jsonOfAny] using
      censorFieldsLoop_cons_leaf (f := ⟨name, tag, ex, .ptr none⟩) rfl ctx path rest

/-- C4 witness: the amended claim applied at a concrete non-record value. -/
theorem c4_dead_end_policy_witness :
    censorFields [("k", Json.null)] "x" (.leaf (.int 7)) = [("k", Json.null)] :=
  (c4_dead_end_policy (.leaf (.int 7)) rfl).1 [("k", Json.null)] "x"

/-- C10: a field whose value normalizes to a record is always recursed into
— no placeholder is ever emitted for the field itself, whatever its
sensitivity tag — and, consequently, an unmarked leaf inside a
sensitivity-marked record-valued field is emitted in cleartext. -/
theorem c10_secret_struct_field_recursed :
    (∀ ctx path (f : Fld Value) rest w, asStruct f.val = some w →
      censorFieldsLoop ctx path (f :: rest) =
        censorFieldsLoop (censorFields ctx (path ++ "." ++ f.name) w)
          path rest) ∧
    (∀ path name tag ex gname gex l,
      censorFields [] path (.strukt [⟨name, tag, ex,
          .strukt [⟨gname, "", gex, .leaf l⟩]⟩]) =
        [(path ++ "." ++ name ++ "." ++ gname, jsonOfLeaf l)]) := by
  constructor
  · exact fun ctx path f rest w h => censorFieldsLoop_cons_struct h ctx path rest
  · intro path name tag ex gname gex l
    simp [censorFields, censorFieldsLoop, asStruct, isFieldSecret, jsonOfAny,
      jsonOfLeaf]

/-- C10 witness: the recursion step applied at a concrete secret-tagged
record-valued field. -/
theorem c10_secret_struct_field_recursed_witness :
    censorFieldsLoop [] "r" [⟨"S", "true", true, .strukt []⟩] =
      censorFieldsLoop (censorFields [] ("r" ++ "." ++ "S") (.strukt [])) "r" [] :=
  c10_secret_struct_field_recursed.1 [] "r" ⟨"S", "true", true, .strukt []⟩ [] _ rfl

/-- zerolog severity levels as received by the hook (zerolog.Level); the
panic level is named `panicLevel` here. -/
inductive Level where
  | trace
  | debug
  | info
  | warn
  | error
  | fatal
  | panicLevel
  | noLevel
  | disabled

/-- Modelled from the spec: the Error Context retrieved by
`ctxerr.From(e.GetCtx())` (the ctxerr collaborator is external to this
repository) — an optional error (none models a nil error; `some m` carries
the error's message) and an auxiliary key/value mapping, modeled as an
association list merged in order. -/
structure ErrCtx where
  err : Option String
  kv : List (String × Json)

/-- The in-flight log event: the fields appended to it so far. -/
structure Event where
  fields : List (String × Json)

/-- Source method `callerHook.Run` (golog.go lines 75-88).  The two external
lookups are inputs: `errCtx` stands for `ctxerr.From(e.GetCtx())` and
`caller3` for `runtime.Caller(3)` (`none` models `ok == false`).  A non-nil
error merges the auxiliary mapping (`e.Fields`) and attaches the error under
the "error" key (`e.Err`); at error/fatal/panic severity a resolved call
site is attached as a "file:line" string. -/
def callerHookRun (errCtx : ErrCtx) (caller3 : Option (String × Int))
    (e : Event) (level : Level) (msg : String) : Event :=
  let e1 : Event :=
    match errCtx.err with
    | some m => { fields := e.fields ++ errCtx.kv ++ [("error", Json.str m)] }
    | none => e
  match level with
  | .error | .fatal | .panicLevel =>
    match caller3 with
    | some (file, line) =>
      { fields := e1.fields ++ [("file", Json.str (file ++ ":" ++ toString line))] }
    | none => e1
  | _ => e1

/-- Spec-side: is the severity at or above the high-severity threshold
(error/fatal/panic)? -/
def isHighSeverity : Level → Bool
  | .error | .fatal | .panicLevel => true
  | _ => false

/-- Spec-side: the optional "file" field the hook contributes. -/
def callerPart (level : Level) (caller3 : Option (String × Int)) :
    List (String × Json) :=
  if isHighSeverity level then
    match caller3 with
    | some (file, line) => [("file", Json.str (file ++ ":" ++ toString line))]
    | none => []
  else []

/-- Spec-side: the event fields after the error-context step alone. -/
def errPart (e : Event) (ec : ErrCtx) : List (String × Json) :=
  match ec.err with
  | some m => e.fields ++ ec.kv ++ [("error", Json.str m)]
  | none => e.fields

/-- C7: the auxiliary mapping of the Error Context is merged into the event
and the error attached as the distinguished "error" field if and only if the
Error Context carries a non-nil error; a nil error adds neither. -/
theorem c7_error_context_iff (ec : ErrCtx) (c3 : Option (String × Int))
    (e : Event) (level : Level) (msg : String) :
    (∀ m, ec.err = some m →
      (callerHookRun ec c3 e level msg).fields =
        e.fields ++ ec.kv ++ [("error", Json.str m)] ++ callerPart level c3) ∧
    (ec.err = none →
      (callerHookRun ec c3 e level msg).fields =
        e.fields ++ callerPart level c3) := by
  constructor
  · intro m hm
    obtain ⟨err, kv⟩ := ec
    cases hm
    cases level <;> cases c3 <;>
      simp [callerHookRun, callerPart, isHighSeverity]
  · intro hm
    obtain ⟨err, kv⟩ := ec
    cases hm
    cases level <;> cases c3 <;>
      simp [callerHookRun, callerPart, isHighSeverity]

/-- C7 witness: at info severity with a non-nil error, the mapping and the
error field are merged (and only they). -/
theorem c7_error_context_iff_witness :
    (callerHookRun ⟨some "boom", [("manifest", Json.str "x")]⟩ none
        ⟨[]⟩ .info "m").fields =
      [] ++ [("manifest", Json.str "x")] ++ [("error", Json.str "boom")] ++
        callerPart .info none :=
  (c7_error_context_iff ⟨some "boom", [("manifest", Json.str "x")]⟩ none
    ⟨[]⟩ .info "m").1 "boom" rfl

/-- C8: at error/fatal/panic severity a resolved call site is attached as a
"file:line" string field; failed resolution skips the field without failing
the emission; below the threshold no such field is ever attached. -/
theorem c8_caller_field (ec : ErrCtx) (c3 : Option (String × Int))
    (e : Event) (level : Level) (msg : String) :
    (∀ file line, isHighSeverity level = true → c3 = some (file, line) →
      (callerHookRun ec c3 e level msg).fields =
        errPart e ec ++ [("file", Json.str (file ++ ":" ++ toString line))]) ∧
    (c3 = none →
      (callerHookRun ec c3 e level msg).fields = errPart e ec) ∧
    (isHighSeverity level = false →
      (callerHookRun ec c3 e level msg).fields = errPart e ec) := by
  refine ⟨?_, ?_, ?_⟩
  · intro file line hl hc
    subst hc
    obtain ⟨err, kv⟩ := ec
    cases level <;> simp_all [callerHookRun, errPart, isHighSeverity] <;>
      cases err <;> simp [callerHookRun, errPart]
  · intro hc
    subst hc
    obtain ⟨err, kv⟩ := ec
    cases level <;> cases err <;> simp [callerHookRun, errPart]
  · intro hl
    obtain ⟨err, kv⟩ := ec
    cases level <;> simp_all [isHighSeverity] <;>
      cases err <;> simp [callerHookRun, errPart]

/-- C8 witness: at error severity with a resolved caller, the file:line
field is appended. -/
theorem c8_caller_field_witness :
    (callerHookRun ⟨none, []⟩ (some ("main.go", 42)) ⟨[]⟩ .error "m").fields =
      errPart ⟨[]⟩ ⟨none, []⟩ ++
        [("file", Json.str ("main.go" ++ ":" ++ toString (42 : Int)))] :=
  (c8_caller_field ⟨none, []⟩ (some ("main.go", 42)) ⟨[]⟩ .error "m").1
    "main.go" 42 rfl rfl

/-- The message of the panic Go's reflect raises when `Interface()` is
called on a value obtained through an unexported field. -/
def interfacePanicMsg : String :=
  "reflect.Value.Interface: cannot return value obtained from unexported field or method"

mutual

/-- `censorFields` again, now also modeling the one way the Go code can
panic: `fieldValue.Interface()` (golog.go line 135) panics when the value
was obtained through an unexported field.  `ro` tracks reflect's read-only
flag, which is set when a field access path crosses an unexported field.
Branches that do not call `Interface()` — the placeholder branch uses
`ctx.Str` with the constant, and struct-normalizing fields are only
recursed into — never panic.  `Except.error` models the propagating
panic. -/
def censorFieldsE (ctx : Ctx) (path : String) (v : Value) (ro : Bool) :
    Except String Ctx :=
  match h : asStruct v with
  | some (.strukt fs) => censorFieldsLoopE ctx path fs ro
  | _ => .ok ctx
termination_by sizeOf v
decreasing_by
  all_goals first
    | (have h1 := asStruct_sizeOf h
       have h2 := fld_val_sizeOf_lt f
       simp only [List.cons.sizeOf_spec] at *
       omega)
    | (have h1 := asStruct_sizeOf h
       simp only [Value.strukt.sizeOf_spec] at *
       omega)
    | (simp only [List.cons.sizeOf_spec] at *; omega)

/-- The field loop of `censorFieldsE`; a panic inside a nested struct
aborts the whole walk. -/
def censorFieldsLoopE (ctx : Ctx) (path : String) (fs : List (Fld Value))
    (ro : Bool) : Except String Ctx :=
  match fs with
  | [] => .ok ctx
  | f :: rest =>
    match h : asStruct f.val with
    | some w =>
      match censorFieldsE ctx (path ++ "." ++ f.name) w (ro || !f.exported) with
      | .ok ctx2 => censorFieldsLoopE ctx2 path rest ro
      | .error m => .error m
    | none =>
      if isFieldSecret f then
        censorFieldsLoopE
          (ctx ++ [(path ++ "." ++ f.name, Json.str CensoredFieldPlaceholder)])
          path rest ro
      else if ro || !f.exported then .error interfacePanicMsg
      else
        censorFieldsLoopE
          (ctx ++ [(path ++ "." ++ f.name, jsonOfAny f.val)]) path rest ro
termination_by sizeOf fs
decreasing_by
  all_goals first
    | (have h1 := asStruct_sizeOf h
       have h2 := fld_val_sizeOf_lt f
       simp only [List.cons.sizeOf_spec] at *
       omega)
    | (have h1 := asStruct_sizeOf h
       simp only [Value.strukt.sizeOf_spec] at *
       omega)
    | (simp only [List.cons.sizeOf_spec] at *; omega)

end

/-- C1: the claim that the redaction logic never panics is contradicted by
the code: walking a struct with an unexported non-struct field reaches
`fieldValue.Interface()` on an unreadable field, which panics, instead of
degrading to "no emission for that branch".  The hook logic (callerHookRun)
is total; the redactor is the failing half. -/
theorem c1_unexported_field_read_panics :
    censorFieldsE [] "r" (.strukt [⟨"a", "", false, .leaf (.int 1)⟩]) false =
      .error interfacePanicMsg ∧
    censorFieldsE [] "r"
        (.strukt [⟨"Keep", "", true,
          .strukt [⟨"wall", "", false, .leaf (.int 0)⟩]⟩]) false =
      .error interfacePanicMsg := by
  constructor <;>
    simp [censorFieldsE, censorFieldsLoopE, asStruct, isFieldSecret]

mutual

/-- All fields reachable by the walk are exported (reflect-readable). -/
def allExportedV : Value → Bool
  | .leaf _ => true
  | .ptr none => true
  | .ptr (some v) => allExportedV v
  | .strukt fs => allExportedL fs
termination_by v => sizeOf v
decreasing_by
  all_goals first
    | (have h2 := fld_val_sizeOf_lt f
       simp only [List.cons.sizeOf_spec] at *
       omega)
    | (simp only [Value.ptr.sizeOf_spec, Option.some.sizeOf_spec,
        Value.strukt.sizeOf_spec, List.cons.sizeOf_spec] at *; omega)

/-- All fields of a field list are exported, recursively. -/
def allExportedL : List (Fld Value) → Bool
  | [] => true
  | f :: rest => f.exported && allExportedV f.val && allExportedL rest
termination_by fs => sizeOf fs
decreasing_by
  all_goals first
    | (have h2 := fld_val_sizeOf_lt f
       simp only [List.cons.sizeOf_spec] at *
       omega)
    | (simp only [Value.ptr.sizeOf_spec, Option.some.sizeOf_spec,
        Value.strukt.sizeOf_spec, List.cons.sizeOf_spec] at *; omega)

end

theorem allExportedV_asStruct : ∀ {v w : Value}, asStruct v = some w →
    allExportedV v = true → allExportedV w = true
  | .ptr (some u), w, h, ha =>
    allExportedV_asStruct (v := u) h (by
      rw [allExportedV] at ha
      exact ha)
  | .strukt fs, w, h, ha => by
    simp only [asStruct, Option.some.injEq] at h
    subst h
    exact ha

theorem censorFieldsE_none {v : Value} (h : asStruct v = none)
    (ctx : Ctx) (path : String) (ro : Bool) :
    censorFieldsE ctx path v ro = .ok ctx := by
  rw [censorFieldsE.eq_def]
  split <;> simp_all

theorem censorFieldsE_strukt {v : Value} {fs : List (Fld Value)}
    (h : asStruct v = some (.strukt fs)) (ctx : Ctx) (path : String)
    (ro : Bool) :
    censorFieldsE ctx path v ro = censorFieldsLoopE ctx path fs ro := by
  rw [censorFieldsE.eq_def]
  split <;> simp_all

theorem censorFieldsLoopE_nil (ctx : Ctx) (path : String) (ro : Bool) :
    censorFieldsLoopE ctx path [] ro = .ok ctx := by
  rw [censorFieldsLoopE.eq_def]

theorem censorFieldsLoopE_cons_struct {f : Fld Value} {w : Value}
    (h : asStruct f.val = some w) (ctx : Ctx) (path : String)
    (rest : List (Fld Value)) (ro : Bool) :
    censorFieldsLoopE ctx path (f :: rest) ro =
      match censorFieldsE ctx (path ++ "." ++ f.name) w (ro || !f.exported) with
      | .ok ctx2 => censorFieldsLoopE ctx2 path rest ro
      | .error m => .error m := by
  rw [censorFieldsLoopE.eq_def]
  dsimp only
  split <;> simp_all

theorem censorFieldsLoopE_cons_leaf {f : Fld Value}
    (h : asStruct f.val = none) (ctx : Ctx) (path : String)
    (rest : List (Fld Value)) (ro : Bool) :
    censorFieldsLoopE ctx path (f :: rest) ro =
      if isFieldSecret f then
        censorFieldsLoopE
          (ctx ++ [(path ++ "." ++ f.name, Json.str CensoredFieldPlaceholder)])
          path rest ro
      else if ro || !f.exported then .error interfacePanicMsg
      else
        censorFieldsLoopE
          (ctx ++ [(path ++ "." ++ f.name, jsonOfAny f.val)]) path rest ro := by
  rw [censorFieldsLoopE.eq_def]
  dsimp only
  split <;> simp_all

theorem censorE_ok_aux :
    ∀ N : Nat,
      (∀ v : Value, sizeOf v ≤ N → allExportedV v = true → ∀ ctx path,
          censorFieldsE ctx path v false = .ok (censorFields ctx path v)) ∧
      (∀ fs : List (Fld Value), sizeOf fs ≤ N → allExportedL fs = true →
          ∀ ctx path,
          censorFieldsLoopE ctx path fs false =
            .ok (censorFieldsLoop ctx path fs)) := by
  intro N
  induction N using Nat.strong_induction_on with
  | _ N IH =>
  constructor
  · intro v hN ha ctx path
    cases hv : asStruct v with
    | none => rw [censorFieldsE_none hv, censorFields_none hv]
    | some w =>
      obtain ⟨fs, rfl⟩ := asStruct_eq_strukt hv
      have hsz := asStruct_sizeOf hv
      simp only [Value.strukt.sizeOf_spec] at hsz
      have hv1 : 1 ≤ sizeOf v := by cases v <;> simp_arith
      have haf : allExportedL fs = true := by
        have := allExportedV_asStruct hv ha
        rw [allExportedV] at this
        exact this
      rw [censorFieldsE_strukt hv, censorFields_strukt hv]
      exact (IH (N - 1) (by omega)).2 fs (by omega) haf ctx path
  · intro fs hN ha ctx path
    cases fs with
    | nil => rw [censorFieldsLoopE_nil, censorFieldsLoop_nil]
    | cons f rest =>
      rw [allExportedL] at ha
      simp only [Bool.and_eq_true] at ha
      obtain ⟨⟨hex, hav⟩, harest⟩ := ha
      have hrest : sizeOf rest < sizeOf (f :: rest) := by
        simp only [List.cons.sizeOf_spec]; omega
      have hfval : sizeOf f.val < sizeOf (f :: rest) := by
        have := fld_val_sizeOf_lt f
        simp only [List.cons.sizeOf_spec]; omega
      have hN1 : 1 ≤ N := by
        have : 1 ≤ sizeOf (f :: rest) := by
          simp only [List.cons.sizeOf_spec]; omega
        omega
      cases hf : asStruct f.val with
      | some w =>
        have hszw := asStruct_sizeOf hf
        have haw : allExportedV w = true := allExportedV_asStruct hf hav
        rw [censorFieldsLoopE_cons_struct hf, censorFieldsLoop_cons_struct hf]
        rw [hex]
        simp only [Bool.not_true, Bool.or_false]
        rw [(IH (N - 1) (by omega)).1 w (by omega) haw ctx (path ++ "." ++ f.name)]
        exact (IH (N - 1) (by omega)).2 rest (by omega) harest _ path
      | none =>
        rw [censorFieldsLoopE_cons_leaf hf, censorFieldsLoop_cons_leaf hf]
        cases hsec : isFieldSecret f with
        | true =>
          simp only [if_pos rfl, hsec, if_true]
          exact (IH (N - 1) (by omega)).2 rest (by omega) harest _ path
        | false =>
          simp only [hsec, Bool.false_eq_true, if_false, hex, Bool.not_true,
            Bool.or_false]
          exact (IH (N - 1) (by omega)).2 rest (by omega) harest _ path

/-- Bridge: on values whose walked fields are all exported (the only inputs
the Go code survives), the panic-tracking model returns exactly what the
pure walk computes. -/
theorem censorFieldsE_eq_ok (ctx : Ctx) (path : String) (v : Value)
    (ha : allExportedV v = true) :
    censorFieldsE ctx path v false = .ok (censorFields ctx path v) :=
  (censorE_ok_aux (sizeOf v)).1 v (Nat.le_refl _) ha ctx path

/-- Go values with explicit pointer indirection through a heap, so that
cyclic reference graphs are representable: a `ref` holds a heap address
(`none` models a nil pointer). -/
inductive HVal where
  | leaf : Leaf → HVal
  | ref : Option Nat → HVal
  | strukt : List (Fld HVal) → HVal

/-- The heap: what each address points at. -/
abbrev Heap := Nat → Option HVal

/-- Result of the fuelled `asStruct`: out of fuel (the pointer chain was
longer than the fuel), not a struct, or the struct's fields. -/
inductive DerefRes where
  | fuelOut
  | notStruct
  | strukt (fs : List (Fld HVal))

/-- `asStruct` over the heap, spending one unit of fuel per pointer
dereference; exhausted fuel stands for a non-terminating dereference. -/
def asStructH (h : Heap) : Nat → HVal → DerefRes
  | _, .leaf _ => .notStruct
  | _, .ref none => .notStruct
  | n, .ref (some a) =>
    match n with
    | 0 => .fuelOut
    | n + 1 =>
      match h a with
      | none => .notStruct
      | some hv => asStructH h n hv
  | _, .strukt fs => .strukt fs

/-- Accumulator entries of the heap walk: the censoring placeholder, or the
raw value handed to `zerolog.Context.Any`. -/
inductive HEmit where
  | censored
  | value (hv : HVal)

abbrev HCtx := List (String × HEmit)

mutual

/-- `censorFields` over the heap with fuel: `none` means the fuel ran out,
i.e. the recursion did not complete within `n` nested steps; a run that
returns `none` for every fuel models non-termination.  The walk itself is
the same as `censorFields`: normalize, then loop over the fields. -/
def censorFieldsH : Nat → Heap → HCtx → String → HVal → Option HCtx
  | 0, _, _, _, _ => none
  | n + 1, h, ctx, path, v =>
    match asStructH h (n + 1) v with
    | .fuelOut => none
    | .notStruct => some ctx
    | .strukt fs => censorFieldsLoopH n h ctx path fs
termination_by n _ _ _ _ => (n, 0)

/-- Field loop of the fuelled heap walk. -/
def censorFieldsLoopH : Nat → Heap → HCtx → String → List (Fld HVal) →
    Option HCtx
  | _, _, ctx, _, [] => some ctx
  | n, h, ctx, path, f :: rest =>
    match asStructH h n f.val with
    | .fuelOut => none
    | .strukt gs =>
      match censorFieldsH n h ctx (path ++ "." ++ f.name) (.strukt gs) with
      | none => none
      | some ctx2 => censorFieldsLoopH n h ctx2 path rest
    | .notStruct =>
      censorFieldsLoopH n h
        (if isFieldSecret f then ctx ++ [(path ++ "." ++ f.name, HEmit.censored)]
         else ctx ++ [(path ++ "." ++ f.name, HEmit.value f.val)])
        path rest
termination_by n _ _ _ fs => (n, fs.length + 1)

end

mutual

/-- `Unfolds h hv t`: following the heap `h`, the heap value `hv` unfolds to
the finite tree `t`.  An input has an acyclic reference graph exactly when
such a finite unfolding exists; a cyclic one has none. -/
inductive Unfolds : Heap → HVal → Value → Prop where
  | leaf (h : Heap) (l : Leaf) : Unfolds h (.leaf l) (.leaf l)
  | refNil (h : Heap) : Unfolds h (.ref none) (.ptr none)
  | refSome (h : Heap) (a : Nat) (hv : HVal) (t : Value) :
      h a = some hv → Unfolds h hv t →
      Unfolds h (.ref (some a)) (.ptr (some t))
  | strukt (h : Heap) (hfs : List (Fld HVal)) (tfs : List (Fld Value)) :
      UnfoldsL h hfs tfs → Unfolds h (.strukt hfs) (.strukt tfs)

/-- Pointwise unfolding of field lists (names and tags preserved). -/
inductive UnfoldsL : Heap → List (Fld HVal) → List (Fld Value) → Prop where
  | nil (h : Heap) : UnfoldsL h [] []
  | cons (h : Heap) (hf : Fld HVal) (tf : Fld Value) (hfs : List (Fld HVal))
      (tfs : List (Fld Value)) :
      hf.name = tf.name → hf.tag = tf.tag → Unfolds h hf.val tf.val →
      UnfoldsL h hfs tfs → UnfoldsL h (hf :: hfs) (tf :: tfs)

end

theorem asStructH_leaf (h : Heap) (n : Nat) (l : Leaf) :
    asStructH h n (.leaf l) = .notStruct := by
  cases n <;> rfl

theorem asStructH_refNil (h : Heap) (n : Nat) :
    asStructH h n (.ref none) = .notStruct := by
  cases n <;> rfl

theorem asStructH_strukt (h : Heap) (n : Nat) (fs : List (Fld HVal)) :
    asStructH h n (.strukt fs) = .strukt fs := by
  cases n <;> rfl

theorem asStructH_refSome (h : Heap) (m : Nat) (a : Nat) (hv : HVal)
    (hheap : h a = some hv) :
    asStructH h (m + 1) (.ref (some a)) = asStructH h m hv := by
  simp [asStructH, hheap]

theorem value_sizeOf_pos (v : Value) : 1 ≤ sizeOf v := by
  cases v <;> simp_arith

theorem asStructH_of_unfolds_aux :
    ∀ N : Nat, ∀ (t : Value) (h : Heap) (hv : HVal),
      sizeOf t ≤ N → Unfolds h hv t → ∀ n, sizeOf t ≤ n →
      (asStruct t = none → asStructH h n hv = .notStruct) ∧
      (∀ ts, asStruct t = some (.strukt ts) →
        ∃ hfs, asStructH h n hv = .strukt hfs ∧ UnfoldsL h hfs ts ∧
          sizeOf (Value.strukt ts) ≤ sizeOf t) := by
  intro N
  induction N using Nat.strong_induction_on with
  | _ N IH =>
  intro t h hv hN hu n hn
  cases hu with
  | leaf l =>
    refine ⟨fun _ => asStructH_leaf h n l, fun ts hts => ?_⟩
    simp [asStruct] at hts
  | refNil =>
    refine ⟨fun _ => asStructH_refNil h n, fun ts hts => ?_⟩
    simp [asStruct] at hts
  | refSome a hv' t' hheap hu' =>
    have hszt : sizeOf (Value.ptr (some t')) = 2 + sizeOf t' := by
      simp only [Value.ptr.sizeOf_spec, Option.some.sizeOf_spec]
      omega
    rw [hszt] at hN hn
    obtain ⟨m, rfl⟩ : ∃ m, n = m + 1 := ⟨n - 1, by omega⟩
    have hred := asStructH_refSome h m a hv' hheap
    have hIH := IH (N - 1) (by omega) t' h hv' (by omega) hu' m (by omega)
    constructor
    · intro h0
      rw [hred]
      exact hIH.1 (by simpa [asStruct] using h0)
    · intro ts hts
      rw [hred]
      obtain ⟨hfs, h1, h2, h3⟩ := hIH.2 ts (by simpa [asStruct] using hts)
      exact ⟨hfs, h1, h2, by omega⟩
  | strukt hfs tfs hL =>
    constructor
    · intro h0
      simp [asStruct] at h0
    · intro ts hts
      have hts2 : tfs = ts := by
        simpa [asStruct] using hts
      subst hts2
      exact ⟨hfs, asStructH_strukt h n hfs, hL, Nat.le_refl _⟩

theorem censorFieldsH_zero (h : Heap) (ctx : HCtx) (path : String) (v : HVal) :
    censorFieldsH 0 h ctx path v = none := by
  rw [censorFieldsH.eq_def]

theorem censorFieldsH_succ (n : Nat) (h : Heap) (ctx : HCtx) (path : String)
    (v : HVal) :
    censorFieldsH (n + 1) h ctx path v =
      match asStructH h (n + 1) v with
      | .fuelOut => none
      | .notStruct => some ctx
      | .strukt fs => censorFieldsLoopH n h ctx path fs := by
  rw [censorFieldsH.eq_def]

theorem censorFieldsLoopH_nil (n : Nat) (h : Heap) (ctx : HCtx)
    (path : String) : censorFieldsLoopH n h ctx path [] = some ctx := by
  rw [censorFieldsLoopH.eq_def]

theorem censorFieldsLoopH_cons (n : Nat) (h : Heap) (ctx : HCtx)
    (path : String) (f : Fld HVal) (rest : List (Fld HVal)) :
    censorFieldsLoopH n h ctx path (f :: rest) =
      match asStructH h n f.val with
      | .fuelOut => none
      | .strukt gs =>
        match censorFieldsH n h ctx (path ++ "." ++ f.name) (.strukt gs) with
        | none => none
        | some ctx2 => censorFieldsLoopH n h ctx2 path rest
      | .notStruct =>
        censorFieldsLoopH n h
          (if isFieldSecret f then ctx ++ [(path ++ "." ++ f.name, HEmit.censored)]
           else ctx ++ [(path ++ "." ++ f.name, HEmit.value f.val)])
          path rest := by
  rw [censorFieldsLoopH.eq_def]

theorem censorH_isSome_aux :
    ∀ N : Nat,
      (∀ (t : Value) (h : Heap) (hv : HVal), sizeOf t ≤ N → Unfolds h hv t →
        ∀ n, sizeOf t ≤ n → ∀ ctx path,
          (censorFieldsH n h ctx path hv).isSome) ∧
      (∀ (ts : List (Fld Value)) (h : Heap) (hfs : List (Fld HVal)),
        sizeOf ts ≤ N → UnfoldsL h hfs ts →
        ∀ n, sizeOf ts ≤ n → ∀ ctx path,
          (censorFieldsLoopH n h ctx path hfs).isSome) := by
  intro N
  induction N using Nat.strong_induction_on with
  | _ N IH =>
  constructor
  · intro t h hv hN hu n hn ctx path
    have ht1 : 1 ≤ sizeOf t := value_sizeOf_pos t
    obtain ⟨m, rfl⟩ : ∃ m, n = m + 1 := ⟨n - 1, by omega⟩
    rw [censorFieldsH_succ]
    have hL1 := asStructH_of_unfolds_aux (sizeOf t) t h hv (Nat.le_refl _) hu
      (m + 1) hn
    cases hast : asStruct t with
    | none =>
      rw [hL1.1 hast]
      simp
    | some w =>
      obtain ⟨ts, rfl⟩ := asStruct_eq_strukt hast
      obtain ⟨hfs, h1, h2, h3⟩ := hL1.2 ts hast
      rw [h1]
      have hsp : sizeOf (Value.strukt ts) = 1 + sizeOf ts := by
        simp only [Value.strukt.sizeOf_spec]
      exact (IH (N - 1) (by omega)).2 ts h hfs (by omega) h2 m (by omega) ctx path
  · intro ts h hfs hN huL n hn ctx path
    cases huL with
    | nil =>
      rw [censorFieldsLoopH_nil]
      simp
    | cons hf tf hfs2 tfs2 hname htag hufv huL2 =>
      rw [censorFieldsLoopH_cons]
      have htfval : sizeOf tf.val < sizeOf (tf :: tfs2) := by
        have := fld_val_sizeOf_lt tf
        simp only [List.cons.sizeOf_spec]
        omega
      have htfs2 : sizeOf tfs2 < sizeOf (tf :: tfs2) := by
        simp only [List.cons.sizeOf_spec]
        omega
      have hL1 := asStructH_of_unfolds_aux (sizeOf tf.val) tf.val h hf.val
        (Nat.le_refl _) hufv n (by omega)
      cases hast : asStruct tf.val with
      | none =>
        rw [hL1.1 hast]
        exact (IH (N - 1) (by omega)).2 tfs2 h hfs2 (by omega) huL2 n
          (by omega) _ path
      | some w =>
        obtain ⟨ts2, rfl⟩ := asStruct_eq_strukt hast
        obtain ⟨gs, h1, h2, h3⟩ := hL1.2 ts2 hast
        rw [h1]
        dsimp only
        have hts1 : 1 ≤ sizeOf (tf :: tfs2) := by
          simp only [List.cons.sizeOf_spec]
          omega
        obtain ⟨m, rfl⟩ : ∃ m, n = m + 1 := ⟨n - 1, by omega⟩
        have hsp : sizeOf (Value.strukt ts2) = 1 + sizeOf ts2 := by
          simp only [Value.strukt.sizeOf_spec]
        have hgs : (censorFieldsLoopH m h ctx (path ++ "." ++ hf.name) gs).isSome := by
          apply (IH (N - 1) (by omega)).2 ts2 h gs (by omega) h2 m (by omega)
        have hin : censorFieldsH (m + 1) h ctx (path ++ "." ++ hf.name)
            (.strukt gs) = censorFieldsLoopH m h ctx (path ++ "." ++ hf.name) gs := by
          rw [censorFieldsH_succ, asStructH_strukt]
        rw [hin]
        obtain ⟨ctx2, hctx2⟩ := Option.isSome_iff_exists.mp hgs
        rw [hctx2]
        exact (IH (N - 1) (by omega)).2 tfs2 h hfs2 (by omega) huL2 (m + 1)
          (by omega) ctx2 path

/-- A one-cell heap whose record's only field points back at the record
itself: the simplest record whose field graph cycles back to an ancestor. -/
def cyclicHeap : Heap := fun a =>
  if a = 0 then some (.strukt [⟨"Self", "", true, .ref (some 0)⟩]) else none

theorem asStructH_cyclic_ref (k : Nat) :
    asStructH cyclicHeap k (.ref (some 0)) = .fuelOut ∨
    asStructH cyclicHeap k (.ref (some 0)) =
      .strukt [⟨"Self", "", true, .ref (some 0)⟩] := by
  cases k with
  | zero => left; rfl
  | succ m =>
    right
    rw [asStructH_refSome cyclicHeap m 0
      (.strukt [⟨"Self", "", true, .ref (some 0)⟩]) rfl]
    exact asStructH_strukt _ m _

theorem censorFieldsH_cyclic :
    ∀ n (ctx : HCtx) (path : String),
      censorFieldsH n cyclicHeap ctx path
        (.strukt [⟨"Self", "", true, .ref (some 0)⟩]) = none := by
  intro n
  induction n with
  | zero => intro ctx path; rw [censorFieldsH_zero]
  | succ n ih =>
    intro ctx path
    rw [censorFieldsH_succ, asStructH_strukt]
    dsimp only
    rw [censorFieldsLoopH_cons]
    rcases asStructH_cyclic_ref n with hfo | hst
    · rw [hfo]
    · rw [hst]
      dsimp only
      rw [ih ctx (path ++ "." ++ "Self")]

/-- C9: the redaction walk terminates on every input whose reference graph
is acyclic (formalized: whose heap value unfolds to a finite tree — for any
such input some finite fuel suffices), and, since no cycle detection or
depth cap is applied, on a record whose field graph cycles back to an
ancestor the recursion does not terminate (the fuelled walk runs out for
every fuel). -/
theorem c9_recursion_termination :
    (∀ (h : Heap) (hv : HVal) (t : Value), Unfolds h hv t →
      ∀ (ctx : HCtx) (path : String),
        ∃ n, (censorFieldsH n h ctx path hv).isSome) ∧
    (∀ n (ctx : HCtx) (path : String),
      censorFieldsH n cyclicHeap ctx path
        (.strukt [⟨"Self", "", true, .ref (some 0)⟩]) = none) := by
  constructor
  · intro h hv t hu ctx path
    exact ⟨sizeOf t, (censorH_isSome_aux (sizeOf t)).1 t h hv (Nat.le_refl _)
      hu (sizeOf t) (Nat.le_refl _) ctx path⟩
  · exact censorFieldsH_cyclic

/-- C9 witness: a concrete acyclic input — a one-field record behind one
heap reference — on which the walk completes with some fuel. -/
theorem c9_recursion_termination_witness :
    ∃ n, (censorFieldsH n
      (fun a => if a = 0 then some (.strukt [⟨"X", "", true, .leaf (.int 3)⟩])
        else none)
      [] "r" (.ref (some 0))).isSome :=
  c9_recursion_termination.1
    (fun a => if a = 0 then some (.strukt [⟨"X", "", true, .leaf (.int 3)⟩])
      else none)
    (.ref (some 0))
    (.ptr (some (.strukt [⟨"X", "", true, .leaf (.int 3)⟩])))
    (Unfolds.refSome _ 0 _ _ rfl
      (Unfolds.strukt _ _ _
        (UnfoldsL.cons _ ⟨"X", "", true, .leaf (.int 3)⟩
          ⟨"X", "", true, .leaf (.int 3)⟩ [] [] rfl rfl
          (Unfolds.leaf _ _) (UnfoldsL.nil _))))
    [] "r"
